import Mathlib

/-!
Verification development for the maavarim record store (src/db.py).

The data layer of the repository manages three tables (services,
employees, events) in an embedded SQL database.  We embed each table as a
list of rows together with the next value of its id sequence, and embed
each store operation as a pure function on that state.  Python string
operations used by the bulk employee merge (str.split(','), str.strip(),
', '.join) are embedded at the character-list level, and the SQL WHERE
clause used for the employee lookup is embedded through a small
three-valued SQL boolean algebra so that NULL comparison semantics are
faithful.
-/

namespace Maavarim

/-! ### Python string primitives -/

/-- Whitespace test used by Python str.strip. -/
def isWS (c : Char) : Bool := c.isWhitespace

/-- Remove trailing whitespace from a character list. -/
def dropTrailWS (l : List Char) : List Char := (l.reverse.dropWhile isWS).reverse

/-- Remove leading and trailing whitespace: embedding of Python str.strip(). -/
def trimC (l : List Char) : List Char := dropTrailWS (l.dropWhile isWS)

/-- Embedding of Python str.strip() on strings. -/
def pyStrip (s : String) : String := String.mk (trimC s.data)

/-- Split a character list on the comma character: embedding of
Python str.split(',').  Always returns at least one piece. -/
def splitC : List Char → List (List Char)
  | [] => [[]]
  | c :: cs =>
    if c = ',' then [] :: splitC cs
    else
      match splitC cs with
      | [] => [[c]]
      | p :: ps => (c :: p) :: ps

/-- Embedding of Python str.split(',') on strings. -/
def pySplitComma (s : String) : List String := (splitC s.data).map String.mk

/-- Join character lists with the separator ", ": embedding of
Python ', '.join. -/
def joinC : List (List Char) → List Char
  | [] => []
  | [x] => x
  | x :: xs => x ++ ',' :: ' ' :: joinC xs

/-- Embedding of Python ', '.join on strings. -/
def joinCommaSpace (ss : List String) : String := String.mk (joinC (ss.map String.data))

/-- Python truthiness of an optional string (None and "" are falsy). -/
def pyTruthy : Option String → Bool
  | none => false
  | some s => decide (s ≠ "")

/-- The parse of a registered_events cell performed by add_employees_bulk:
[e.strip() for e in current_events.split(',')]. -/
def parseEvents (c : String) : List String := (pySplitComma c).map pyStrip

/-! ### SQL three-valued logic -/

/-- SQL boolean values: true, false, unknown (result of comparing NULL). -/
inductive SQLBool where
  | tt
  | ff
  | uu
deriving DecidableEq, Repr

/-- SQL AND. -/
def sqlAnd : SQLBool → SQLBool → SQLBool
  | .tt, b => b
  | .ff, _ => .ff
  | .uu, .ff => .ff
  | .uu, _ => .uu

/-- SQL OR. -/
def sqlOr : SQLBool → SQLBool → SQLBool
  | .tt, _ => .tt
  | .ff, b => b
  | .uu, .tt => .tt
  | .uu, _ => .uu

/-- SQL equality on nullable strings: comparing with NULL is unknown. -/
def sqlEqStr : Option String → Option String → SQLBool
  | some a, some b => if a = b then .tt else .ff
  | _, _ => .uu

/-- SQL IS NULL. -/
def sqlIsNull : Option String → SQLBool
  | none => .tt
  | some _ => .ff

/-- A WHERE clause keeps a row exactly when its condition is true
(not false and not unknown). -/
def sqlIsTrue : SQLBool → Bool
  | .tt => true
  | _ => false

/-! ### Data model (tables of src/db.py) -/

/-- A row of the services table. -/
structure Service where
  id : Nat
  name : String
  domain : String
deriving DecidableEq, Repr

/-- The services table with its id sequence. -/
structure ServicesState where
  rows : List Service
  nextId : Nat
deriving DecidableEq, Repr

/-- A row of the employees table. -/
structure Employee where
  id : Nat
  first_name : String
  last_name : String
  email : Option String
  phone : Option String
  residence : Option String
  role : Option String
  work_location : Option String
  registered_events : Option String
deriving DecidableEq, Repr

/-- The employees table with its id sequence. -/
structure EmployeesState where
  rows : List Employee
  nextId : Nat
deriving DecidableEq, Repr

/-- A row of the events table. -/
structure Event where
  id : Nat
  name : String
  date : Option Int
deriving DecidableEq, Repr

/-- The events table with its id sequence. -/
structure EventsState where
  rows : List Event
  nextId : Nat
deriving DecidableEq, Repr

/-- An input record of add_employees_bulk: a parsed spreadsheet row
(a Python dict whose values are absent or strings). -/
structure InputRecord where
  first_name : Option String
  last_name : Option String
  email : Option String
  phone : Option String
  residence : Option String
  role : Option String
  work_location : Option String
deriving DecidableEq, Repr

/-- employee.get('first_name', ''). -/
def recFirst (r : InputRecord) : String := r.first_name.getD ""

/-- employee.get('last_name', ''). -/
def recLast (r : InputRecord) : String := r.last_name.getD ""

/-! ### Services operations (src/db.py lines 69-117) -/

/-- ORDER BY domain, name. -/
def serviceLE (a b : Service) : Prop :=
  a.domain < b.domain ∨ (a.domain = b.domain ∧ a.name ≤ b.name)

instance : DecidableRel serviceLE := fun a b => by
  unfold serviceLE; infer_instance

/-- get_all_services: SELECT id, name, domain FROM services ORDER BY domain, name. -/
def get_all_services (s : ServicesState) : List Service :=
  List.insertionSort serviceLE s.rows

/-- add_service: INSERT with a fresh sequence id; a ConstraintException
(violation of the UNIQUE constraint on name) is caught and reported as
False with no row inserted. -/
def add_service (name domain : String) (s : ServicesState) : Bool × ServicesState :=
  if s.rows.any (fun r => r.name = name) then (false, s)
  else (true, ⟨s.rows ++ [⟨s.nextId, name, domain⟩], s.nextId + 1⟩)

/-- ORDER BY last_name, first_name. -/
def employeeLE (a b : Employee) : Prop :=
  a.last_name < b.last_name ∨ (a.last_name = b.last_name ∧ a.first_name ≤ b.first_name)

instance : DecidableRel employeeLE := fun a b => by
  unfold employeeLE; infer_instance

/-- get_all_employees: SELECT ... FROM employees ORDER BY last_name, first_name. -/
def get_all_employees (s : EmployeesState) : List Employee :=
  List.insertionSort employeeLE s.rows

/-- The WHERE clause of the existence lookup in add_employees_bulk:
first_name = ? AND last_name = ? AND (email = ? OR (email IS NULL AND ? IS NULL)),
evaluated in SQL three-valued logic. -/
def employeeMatches (fn ln : String) (em : Option String) (e : Employee) : Bool :=
  sqlIsTrue (sqlAnd (sqlEqStr (some e.first_name) (some fn))
    (sqlAnd (sqlEqStr (some e.last_name) (some ln))
      (sqlOr (sqlEqStr e.email em) (sqlAnd (sqlIsNull e.email) (sqlIsNull em)))))

/-- The existence lookup (fetchone: first matching row in table order). -/
def findExisting (rows : List Employee) (rec : InputRecord) : Option Employee :=
  rows.find? (employeeMatches (recFirst rec) (recLast rec) rec.email)

/-- UPDATE employees SET registered_events = ? WHERE id = ?. -/
def setEvents (rows : List Employee) (empId : Nat) (v : Option String) : List Employee :=
  rows.map (fun r => if r.id = empId then { r with registered_events := v } else r)

/-- One iteration of the add_employees_bulk loop for a single input record. -/
def bulkStep (event_name : Option String) (s : EmployeesState) (rec : InputRecord) :
    EmployeesState :=
  match findExisting s.rows rec with
  | some emp =>
    if pyTruthy emp.registered_events then
      match event_name with
      | some e =>
        if e ≠ "" ∧ e ∉ parseEvents (emp.registered_events.getD "") then
          ⟨setEvents s.rows emp.id
            (some (joinCommaSpace (parseEvents (emp.registered_events.getD "") ++ [e]))),
           s.nextId⟩
        else s
      | none => s
    else
      match event_name with
      | some e =>
        if e ≠ "" then ⟨setEvents s.rows emp.id (some e), s.nextId⟩ else s
      | none => s
  | none =>
    ⟨s.rows ++ [⟨s.nextId, recFirst rec, recLast rec, rec.email, rec.phone,
       rec.residence, rec.role, rec.work_location, event_name⟩],
     s.nextId + 1⟩

/-- add_employees_bulk: process the input records in order, counting every
record; returns the count and the final table state. -/
def add_employees_bulk (employees_data : List InputRecord) (event_name : Option String)
    (s : EmployeesState) : Nat × EmployeesState :=
  match employees_data with
  | [] => (0, s)
  | rec :: rest =>
    let s1 := bulkStep event_name s rec
    let res := add_employees_bulk rest event_name s1
    (res.1 + 1, res.2)

/-! ### Events operations (src/db.py lines 249-256) -/

/-- ORDER BY date DESC, name (DuckDB places NULL dates last). -/
def eventLE (a b : Event) : Prop :=
  match a.date, b.date with
  | some x, some y => y < x ∨ (x = y ∧ a.name ≤ b.name)
  | some _, none => True
  | none, some _ => False
  | none, none => a.name ≤ b.name

instance : DecidableRel eventLE := fun a b => by
  unfold eventLE; exact match a.date, b.date with
  | some _, some _ => inferInstance
  | some _, none => inferInstance
  | none, some _ => inferInstance
  | none, none => inferInstance

/-- get_all_events: SELECT id, name, date FROM events ORDER BY date DESC, name. -/
def get_all_events (s : EventsState) : List Event :=
  List.insertionSort eventLE s.rows

/-! ### Well-formedness of reachable employee states -/

/-- Invariant maintained by the store: row ids are pairwise distinct and
below the next sequence value. -/
def EmployeesState.WF (s : EmployeesState) : Prop :=
  (s.rows.map Employee.id).Nodup ∧ ∀ r ∈ s.rows, r.id < s.nextId

/-- The per-row fields of an employee that the bulk merge never rewrites
(everything except registered_events). -/
def sameFrame (a b : Employee) : Prop :=
  b.id = a.id ∧ b.first_name = a.first_name ∧ b.last_name = a.last_name ∧
  b.email = a.email ∧ b.phone = a.phone ∧ b.residence = a.residence ∧
  b.role = a.role ∧ b.work_location = a.work_location

/-- The entries of a registered_events cell as the merge reads them:
no cell or an empty cell holds no entry, a non-empty cell is split on
commas with each piece stripped. -/
def eventListOf : Option String → List String
  | none => []
  | some c => if c = "" then [] else parseEvents c

/-- The string stored for a matched employee when the event label is
appended: the freshly joined list when entries were present, the bare
label otherwise. -/
def appendedEvents (cur : Option String) (e : String) : String :=
  if pyTruthy cur then joinCommaSpace (parseEvents (cur.getD "") ++ [e]) else e

/-! ### The ORDER BY relations are total preorders -/

instance : IsTotal Service serviceLE := ⟨by
  intro a b
  unfold serviceLE
  rcases lt_trichotomy a.domain b.domain with h | h | h
  · exact Or.inl (Or.inl h)
  · rcases le_total a.name b.name with hn | hn
    · exact Or.inl (Or.inr ⟨h, hn⟩)
    · exact Or.inr (Or.inr ⟨h.symm, hn⟩)
  · exact Or.inr (Or.inl h)⟩

instance : IsTrans Service serviceLE := ⟨by
  intro a b c hab hbc
  unfold serviceLE at hab hbc ⊢
  rcases hab with h1 | ⟨h1, h1n⟩
  · rcases hbc with h2 | ⟨h2, _⟩
    · exact Or.inl (h1.trans h2)
    · exact Or.inl (lt_of_lt_of_eq h1 h2)
  · rcases hbc with h2 | ⟨h2, h2n⟩
    · exact Or.inl (lt_of_eq_of_lt h1 h2)
    · exact Or.inr ⟨h1.trans h2, h1n.trans h2n⟩⟩

instance : IsTotal Employee employeeLE := ⟨by
  intro a b
  unfold employeeLE
  rcases lt_trichotomy a.last_name b.last_name with h | h | h
  · exact Or.inl (Or.inl h)
  · rcases le_total a.first_name b.first_name with hn | hn
    · exact Or.inl (Or.inr ⟨h, hn⟩)
    · exact Or.inr (Or.inr ⟨h.symm, hn⟩)
  · exact Or.inr (Or.inl h)⟩

instance : IsTrans Employee employeeLE := ⟨by
  intro a b c hab hbc
  unfold employeeLE at hab hbc ⊢
  rcases hab with h1 | ⟨h1, h1n⟩
  · rcases hbc with h2 | ⟨h2, _⟩
    · exact Or.inl (h1.trans h2)
    · exact Or.inl (lt_of_lt_of_eq h1 h2)
  · rcases hbc with h2 | ⟨h2, h2n⟩
    · exact Or.inl (lt_of_eq_of_lt h1 h2)
    · exact Or.inr ⟨h1.trans h2, h1n.trans h2n⟩⟩

instance : IsTotal Event eventLE := ⟨by
  intro a b
  obtain ⟨ai, an, ad⟩ := a
  obtain ⟨bi, bn, bd⟩ := b
  rcases ad with _ | x <;> rcases bd with _ | y
  · exact (le_total an bn).imp id id
  · exact Or.inr trivial
  · exact Or.inl trivial
  · rcases lt_trichotomy x y with h | h | h
    · exact Or.inr (Or.inl h)
    · rcases le_total an bn with hn | hn
      · exact Or.inl (Or.inr ⟨h, hn⟩)
      · exact Or.inr (Or.inr ⟨h.symm, hn⟩)
    · exact Or.inl (Or.inl h)⟩

instance : IsTrans Event eventLE := ⟨by
  intro a b c hab hbc
  obtain ⟨ai, an, ad⟩ := a
  obtain ⟨bi, bn, bd⟩ := b
  obtain ⟨ci, cn, cd⟩ := c
  rcases ad with _ | x <;> rcases bd with _ | y <;> rcases cd with _ | z
  · exact le_trans hab hbc
  · exact hbc.elim
  · exact hab.elim
  · exact hab.elim
  · exact trivial
  · exact hbc.elim
  · exact trivial
  · rcases hab with h1 | ⟨h1, h1n⟩
    · rcases hbc with h2 | ⟨h2, _⟩
      · exact Or.inl (h2.trans h1)
      · exact Or.inl (lt_of_eq_of_lt h2.symm h1)
    · rcases hbc with h2 | ⟨h2, h2n⟩
      · exact Or.inl (lt_of_lt_of_eq h2 h1.symm)
      · exact Or.inr ⟨h1.trans h2, h1n.trans h2n⟩⟩

/-! ### Lemmas about the Python string primitives -/

theorem splitC_ne_nil (l : List Char) : splitC l ≠ [] := by
  induction l with
  | nil => simp [splitC]
  | cons c cs ih =>
    rw [splitC]
    split
    · simp
    · split <;> simp

theorem mem_splitC_not_comma : ∀ {l p : List Char}, p ∈ splitC l → ',' ∉ p := by
  intro l
  induction l with
  | nil =>
    intro p hp
    simp [splitC] at hp
    subst hp
    simp
  | cons c cs ih =>
    intro p hp
    rw [splitC] at hp
    by_cases hc : c = ','
    · rw [if_pos hc] at hp
      rcases List.mem_cons.mp hp with rfl | hp'
      · simp
      · exact ih hp'
    · rw [if_neg hc] at hp
      rcases hsp : splitC cs with _ | ⟨p0, ps⟩
      · exact absurd hsp (splitC_ne_nil cs)
      · rw [hsp] at hp
        rcases List.mem_cons.mp hp with rfl | hp'
        · intro hmem
          rcases List.mem_cons.mp hmem with h1 | h2
          · exact hc h1.symm
          · exact ih (hsp ▸ List.mem_cons_self p0 ps) h2
        · exact ih (hsp ▸ List.mem_cons_of_mem p0 hp')

theorem splitC_of_not_mem : ∀ {l : List Char}, ',' ∉ l → splitC l = [l] := by
  intro l
  induction l with
  | nil => intro _; rfl
  | cons c cs ih =>
    intro h
    rw [List.mem_cons, not_or] at h
    have hc : ¬(c = ',') := fun e => h.1 e.symm
    rw [splitC, if_neg hc, ih h.2]

theorem splitC_append_comma {a : List Char} (b : List Char) (h : ',' ∉ a) :
    splitC (a ++ ',' :: b) = a :: splitC b := by
  induction a with
  | nil => simp [splitC]
  | cons c a' ih =>
    rw [List.mem_cons, not_or] at h
    have hc : ¬(c = ',') := fun e => h.1 e.symm
    rw [List.cons_append, splitC, if_neg hc, ih h.2]

theorem joinC_single (x : List Char) : joinC [x] = x := rfl

theorem joinC_cons2 (x y : List Char) (t : List (List Char)) :
    joinC (x :: y :: t) = x ++ ',' :: ' ' :: joinC (y :: t) := rfl

theorem joinC_cons2_ne_nil (a b : List Char) (t : List (List Char)) :
    joinC (a :: b :: t) ≠ [] := by
  rw [joinC_cons2]
  rcases a with _ | ⟨c, a'⟩ <;> simp

theorem splitC_joinC : ∀ {xs : List (List Char)} (x0 : List Char),
    (∀ x ∈ x0 :: xs, ',' ∉ x) →
    splitC (joinC (x0 :: xs)) = x0 :: xs.map (fun x => ' ' :: x) := by
  intro xs
  induction xs with
  | nil =>
    intro x0 h
    rw [joinC_single, splitC_of_not_mem (h x0 (List.mem_cons_self x0 []))]
    rfl
  | cons x1 t ih =>
    intro x0 h
    rw [joinC_cons2, splitC_append_comma _ (h x0 (List.mem_cons_self ..))]
    have hrest : splitC (joinC (x1 :: t)) = x1 :: t.map (fun x => ' ' :: x) :=
      ih x1 (fun x hx => h x (List.mem_cons_of_mem _ hx))
    have hsp : ¬((' ' : Char) = ',') := by decide
    rw [splitC, if_neg hsp, hrest]
    rfl

theorem dropWhile_dropWhile {α : Type _} (p : α → Bool) (l : List α) :
    List.dropWhile p (List.dropWhile p l) = List.dropWhile p l := by
  induction l with
  | nil => rfl
  | cons c cs ih =>
    rw [List.dropWhile_cons]
    by_cases hc : p c = true
    · rw [if_pos hc]; exact ih
    · rw [if_neg hc, List.dropWhile_cons_of_neg hc]

theorem dropWhile_prefix_self {p : Char → Bool} {m t : List Char}
    (hm : List.dropWhile p m = m) (ht : t <+: m) : List.dropWhile p t = t := by
  cases t with
  | nil => rfl
  | cons c t' =>
    obtain ⟨r, hr⟩ := ht
    have hc : ¬(p c = true) := by
      intro hpc
      rw [← hr, List.cons_append, List.dropWhile_cons, if_pos hpc] at hm
      have h1 : (List.dropWhile p (t' ++ r)).length ≤ (t' ++ r).length :=
        (List.dropWhile_sublist p).length_le
      have h2 := congrArg List.length hm
      simp only [List.length_cons] at h2
      omega
    rw [List.dropWhile_cons_of_neg hc]

theorem dropTrailWS_prefixOf (m : List Char) : dropTrailWS m <+: m := by
  have h : List.dropWhile isWS m.reverse <:+ m.reverse := List.dropWhile_suffix isWS
  exact List.reverse_suffix.mp (by rw [dropTrailWS, List.reverse_reverse]; exact h)

theorem dropTrailWS_dropTrailWS (m : List Char) :
    dropTrailWS (dropTrailWS m) = dropTrailWS m := by
  unfold dropTrailWS
  rw [List.reverse_reverse, dropWhile_dropWhile]

theorem trimC_idem (l : List Char) : trimC (trimC l) = trimC l := by
  unfold trimC
  have h1 : List.dropWhile isWS (List.dropWhile isWS l) = List.dropWhile isWS l :=
    dropWhile_dropWhile ..
  have h2 : List.dropWhile isWS (dropTrailWS (List.dropWhile isWS l)) =
      dropTrailWS (List.dropWhile isWS l) :=
    dropWhile_prefix_self h1 (dropTrailWS_prefixOf _)
  rw [h2, dropTrailWS_dropTrailWS]

theorem trimC_cons_ws {c : Char} (hc : isWS c = true) (l : List Char) :
    trimC (c :: l) = trimC l := by
  unfold trimC
  rw [List.dropWhile_cons, if_pos hc]

theorem trimC_sublist (l : List Char) : (trimC l).Sublist l := by
  have h1 : (List.dropWhile isWS (List.dropWhile isWS l).reverse).Sublist
      (List.dropWhile isWS l).reverse := List.dropWhile_sublist _
  have h2 := h1.reverse
  rw [List.reverse_reverse] at h2
  unfold trimC dropTrailWS
  exact h2.trans (List.dropWhile_sublist _)

theorem not_mem_trimC {c : Char} {l : List Char} (h : c ∉ l) : c ∉ trimC l :=
  fun hc => h ((trimC_sublist l).subset hc)

theorem pyStrip_data (s : String) : (pyStrip s).data = trimC s.data := rfl

theorem pyStrip_idem (s : String) : pyStrip (pyStrip s) = pyStrip s := by
  unfold pyStrip
  exact String.ext (by simp [trimC_idem])

theorem pyStrip_mk_space (x : List Char) :
    pyStrip (String.mk (' ' :: x)) = pyStrip (String.mk x) := by
  unfold pyStrip
  exact String.ext (by simp [trimC_cons_ws (by decide : isWS ' ' = true)])

theorem parseEvents_eq (c : String) :
    parseEvents c = (splitC c.data).map (fun p => pyStrip (String.mk p)) := by
  unfold parseEvents pySplitComma
  rw [List.map_map]
  rfl

theorem parseEvents_ne_nil (c : String) : parseEvents c ≠ [] := by
  rw [parseEvents_eq]
  intro h
  exact splitC_ne_nil c.data (List.map_eq_nil_iff.mp h)

theorem parseEvents_mem_strip {c x : String} (hx : x ∈ parseEvents c) :
    pyStrip x = x := by
  rw [parseEvents_eq] at hx
  obtain ⟨p, _, rfl⟩ := List.mem_map.mp hx
  exact pyStrip_idem _

theorem parseEvents_mem_not_comma {c x : String} (hx : x ∈ parseEvents c) :
    ',' ∉ x.data := by
  rw [parseEvents_eq] at hx
  obtain ⟨p, hp, rfl⟩ := List.mem_map.mp hx
  have h1 : ',' ∉ p := mem_splitC_not_comma hp
  rw [pyStrip_data]
  exact not_mem_trimC h1

theorem parseEvents_joinCommaSpace {ss : List String} (hne : ss ≠ [])
    (h : ∀ x ∈ ss, ',' ∉ x.data) :
    parseEvents (joinCommaSpace ss) = ss.map pyStrip := by
  obtain ⟨x0, xs, rfl⟩ := List.exists_cons_of_ne_nil hne
  rw [parseEvents_eq]
  have hdata : (joinCommaSpace (x0 :: xs)).data = joinC (x0.data :: xs.map String.data) := rfl
  have hcf : ∀ x ∈ x0.data :: xs.map String.data, ',' ∉ x := by
    intro x hx
    rcases List.mem_cons.mp hx with rfl | hx'
    · exact h x0 (List.mem_cons_self ..)
    · obtain ⟨y, hy, rfl⟩ := List.mem_map.mp hx'
      exact h y (List.mem_cons_of_mem _ hy)
  rw [hdata, splitC_joinC x0.data hcf]
  simp only [List.map_cons, List.map_map]
  congr 1

/-! ### Lemmas about event-list cells -/

theorem pyTruthy_some_iff {c : String} : pyTruthy (some c) = true ↔ c ≠ "" := by
  simp [pyTruthy]

theorem eventListOf_falsy {cur : Option String} (h : pyTruthy cur = false) :
    eventListOf cur = [] := by
  rcases cur with _ | c
  · rfl
  · have hc : c = "" := by simpa [pyTruthy] using h
    subst hc
    rfl

theorem eventListOf_truthy {c : String} (h : c ≠ "") :
    eventListOf (some c) = parseEvents c := by
  simp [eventListOf, h]

theorem parseEvents_single {e : String} (h : ',' ∉ e.data) :
    parseEvents e = [pyStrip e] := by
  rw [parseEvents_eq, splitC_of_not_mem h]
  rfl

theorem string_ne_empty_of_data_ne_nil {s : String} (h : s.data ≠ []) : s ≠ "" :=
  fun he => h (by rw [he])

theorem joinCommaSpace_append_ne_empty {lst : List String} (e : String) (h : lst ≠ []) :
    joinCommaSpace (lst ++ [e]) ≠ "" := by
  obtain ⟨x0, xs, rfl⟩ := List.exists_cons_of_ne_nil h
  apply string_ne_empty_of_data_ne_nil
  show joinC (((x0 :: xs) ++ [e]).map String.data) ≠ []
  rcases xs with _ | ⟨x1, t⟩
  · exact joinC_cons2_ne_nil _ _ _
  · exact joinC_cons2_ne_nil _ _ _

theorem parseEvents_join_append {c e : String} (he : ',' ∉ e.data) :
    parseEvents (joinCommaSpace (parseEvents c ++ [e])) = parseEvents c ++ [pyStrip e] := by
  have hne : parseEvents c ++ [e] ≠ [] := by simp
  have hcf : ∀ x ∈ parseEvents c ++ [e], ',' ∉ x.data := by
    intro x hx
    rcases List.mem_append.mp hx with hx' | hx'
    · exact parseEvents_mem_not_comma hx'
    · rw [List.mem_singleton.mp hx']
      exact he
  rw [parseEvents_joinCommaSpace hne hcf, List.map_append]
  congr 1
  exact (List.map_congr_left (fun x hx => parseEvents_mem_strip hx)).trans (List.map_id _)

/-! ### Branch behaviour of a single bulk-merge iteration -/

theorem bulkStep_notfound {s : EmployeesState} {rec : InputRecord}
    (event_name : Option String) (hfind : findExisting s.rows rec = none) :
    bulkStep event_name s rec =
      ⟨s.rows ++ [⟨s.nextId, recFirst rec, recLast rec, rec.email, rec.phone,
        rec.residence, rec.role, rec.work_location, event_name⟩], s.nextId + 1⟩ := by
  unfold bulkStep
  rw [hfind]

theorem bulkStep_found_none {s : EmployeesState} {rec : InputRecord} {emp : Employee}
    (hfind : findExisting s.rows rec = some emp) :
    bulkStep none s rec = s := by
  cases ht : pyTruthy emp.registered_events <;> simp [bulkStep, hfind, ht]

theorem bulkStep_found_empty {s : EmployeesState} {rec : InputRecord} {emp : Employee}
    (hfind : findExisting s.rows rec = some emp) :
    bulkStep (some "") s rec = s := by
  cases ht : pyTruthy emp.registered_events <;> simp [bulkStep, hfind, ht]

theorem bulkStep_found_mem {s : EmployeesState} {rec : InputRecord} {emp : Employee}
    {e : String} (hfind : findExisting s.rows rec = some emp)
    (hmem : e ∈ eventListOf emp.registered_events) :
    bulkStep (some e) s rec = s := by
  cases ht : pyTruthy emp.registered_events with
  | false => exact absurd hmem (by rw [eventListOf_falsy ht]; exact List.not_mem_nil e)
  | true =>
    rcases hcur : emp.registered_events with _ | c
    · rw [hcur] at ht
      exact absurd ht (by simp [pyTruthy])
    · have ht' : pyTruthy (some c) = true := by rwa [hcur] at ht
      have hc : c ≠ "" := pyTruthy_some_iff.mp ht'
      rw [hcur, eventListOf_truthy hc] at hmem
      simp [bulkStep, hfind, hcur, ht', hmem]

theorem bulkStep_found_app {s : EmployeesState} {rec : InputRecord} {emp : Employee}
    {e : String} (hfind : findExisting s.rows rec = some emp) (hne : e ≠ "")
    (hnm : e ∉ eventListOf emp.registered_events) :
    bulkStep (some e) s rec =
      ⟨setEvents s.rows emp.id (some (appendedEvents emp.registered_events e)), s.nextId⟩ := by
  cases ht : pyTruthy emp.registered_events with
  | false =>
    simp [bulkStep, hfind, appendedEvents, ht, hne]
  | true =>
    rcases hcur : emp.registered_events with _ | c
    · rw [hcur] at ht
      exact absurd ht (by simp [pyTruthy])
    · have ht' : pyTruthy (some c) = true := by rwa [hcur] at ht
      have hc : c ≠ "" := pyTruthy_some_iff.mp ht'
      have hnm' : e ∉ parseEvents c := by rwa [hcur, eventListOf_truthy hc] at hnm
      simp [bulkStep, hfind, appendedEvents, hcur, ht', hne, hnm']

/-! ### The lookup against updated and extended tables -/

theorem eventListOf_appended {cur : Option String} {e : String} (hne : e ≠ "")
    (hcomma : ',' ∉ e.data) :
    eventListOf (some (appendedEvents cur e)) = eventListOf cur ++ [pyStrip e] := by
  by_cases ht : pyTruthy cur = true
  · rcases cur with _ | c
    · exact absurd ht (by simp [pyTruthy])
    · have hc : c ≠ "" := pyTruthy_some_iff.mp ht
      have happ : appendedEvents (some c) e = joinCommaSpace (parseEvents c ++ [e]) := by
        simp [appendedEvents, ht]
      rw [happ, eventListOf_truthy hc,
        eventListOf_truthy (joinCommaSpace_append_ne_empty e (parseEvents_ne_nil c)),
        parseEvents_join_append hcomma]
  · have hf : pyTruthy cur = false := by
      cases h : pyTruthy cur
      · rfl
      · exact absurd h ht
    have happ : appendedEvents cur e = e := by simp [appendedEvents, hf]
    rw [happ, eventListOf_falsy hf, eventListOf_truthy hne, parseEvents_single hcomma]
    rfl

theorem find?_map_pres {α : Type _} {p : α → Bool} {f : α → α} (hp : ∀ r, p (f r) = p r) :
    ∀ l : List α, (l.map f).find? p = (l.find? p).map f := by
  intro l
  induction l with
  | nil => rfl
  | cons a t ih =>
    simp only [List.map_cons, List.find?_cons]
    rw [hp a]
    cases h : p a
    · exact ih
    · rfl

theorem employeeMatches_setEvents (fn ln : String) (em : Option String) (tid : Nat)
    (v : Option String) (r : Employee) :
    employeeMatches fn ln em (if r.id = tid then { r with registered_events := v } else r) =
      employeeMatches fn ln em r := by
  by_cases h : r.id = tid
  · rw [if_pos h]
    rfl
  · rw [if_neg h]

theorem findExisting_setEvents (rows : List Employee) (rec : InputRecord) (tid : Nat)
    (v : Option String) :
    findExisting (setEvents rows tid v) rec = (findExisting rows rec).map
      (fun r => if r.id = tid then { r with registered_events := v } else r) :=
  find?_map_pres (employeeMatches_setEvents _ _ _ _ _) rows

theorem findExisting_append_found {rows : List Employee} {rec : InputRecord} {emp : Employee}
    (h : findExisting rows rec = some emp) (l2 : List Employee) :
    findExisting (rows ++ l2) rec = some emp := by
  unfold findExisting at h ⊢
  rw [List.find?_append, h]
  rfl

theorem matches_inserted (rec : InputRecord) (i : Nat) (ev : Option String) :
    employeeMatches (recFirst rec) (recLast rec) rec.email
      ⟨i, recFirst rec, recLast rec, rec.email, rec.phone, rec.residence, rec.role,
        rec.work_location, ev⟩ = true := by
  rcases rec with ⟨rfn, rln, rem, rph, rre, rro, rwl⟩
  rcases rem with _ | y <;>
    simp [employeeMatches, recFirst, recLast, sqlEqStr, sqlAnd, sqlOr, sqlIsNull, sqlIsTrue]

theorem findExisting_insert_self {rows : List Employee} {rec : InputRecord}
    (h : findExisting rows rec = none) (i : Nat) (ev : Option String) :
    findExisting (rows ++ [⟨i, recFirst rec, recLast rec, rec.email, rec.phone, rec.residence,
        rec.role, rec.work_location, ev⟩]) rec =
      some ⟨i, recFirst rec, recLast rec, rec.email, rec.phone, rec.residence,
        rec.role, rec.work_location, ev⟩ := by
  unfold findExisting at h ⊢
  rw [List.find?_append, h]
  simp [List.find?_cons, matches_inserted]

/-! ### Well-formedness is preserved by the bulk merge -/

theorem setEvents_map_id (rows : List Employee) (tid : Nat) (v : Option String) :
    (setEvents rows tid v).map Employee.id = rows.map Employee.id := by
  unfold setEvents
  rw [List.map_map]
  apply List.map_congr_left
  intro r _
  by_cases h : r.id = tid <;> simp [h]

theorem setEvents_id_mem {rows : List Employee} {tid : Nat} {v : Option String}
    {r' : Employee} (h : r' ∈ setEvents rows tid v) : ∃ r ∈ rows, r'.id = r.id := by
  obtain ⟨r, hr, rfl⟩ := List.mem_map.mp h
  refine ⟨r, hr, ?_⟩
  by_cases hid : r.id = tid <;> simp [hid]

theorem bulkStep_WF {s : EmployeesState} {rec : InputRecord} (ev : Option String)
    (h : s.WF) : (bulkStep ev s rec).WF := by
  rcases hfind : findExisting s.rows rec with _ | emp
  · rw [bulkStep_notfound ev hfind]
    constructor
    · show ((s.rows ++ [_]).map Employee.id).Nodup
      rw [List.map_append]
      rw [List.nodup_append]
      refine ⟨h.1, List.nodup_singleton _, ?_⟩
      intro x hx hx2
      obtain ⟨r, hr, rfl⟩ := List.mem_map.mp hx
      have hx2' : r.id = s.nextId := by simpa using hx2
      exact absurd (h.2 r hr) (by rw [hx2']; exact lt_irrefl _)
    · intro r hr
      rcases List.mem_append.mp hr with hr' | hr'
      · exact Nat.lt_succ_of_lt (h.2 r hr')
      · rw [List.mem_singleton.mp hr']
        exact Nat.lt_succ_self _
  · rcases ev with _ | e
    · rw [bulkStep_found_none hfind]
      exact h
    · by_cases hne : e = ""
      · subst hne
        rw [bulkStep_found_empty hfind]
        exact h
      · by_cases hmem : e ∈ eventListOf emp.registered_events
        · rw [bulkStep_found_mem hfind hmem]
          exact h
        · rw [bulkStep_found_app hfind hne hmem]
          constructor
          · show ((setEvents s.rows emp.id _).map Employee.id).Nodup
            rw [setEvents_map_id]
            exact h.1
          · intro r hr
            obtain ⟨r0, hr0, hid⟩ := setEvents_id_mem hr
            rw [hid]
            exact h.2 r0 hr0

/-! ### Frame lemmas for the bulk merge -/

theorem sameFrame_refl (a : Employee) : sameFrame a a :=
  ⟨rfl, rfl, rfl, rfl, rfl, rfl, rfl, rfl⟩

theorem sameFrame_trans {a b c : Employee} (h1 : sameFrame a b) (h2 : sameFrame b c) :
    sameFrame a c := by
  obtain ⟨g1, g2, g3, g4, g5, g6, g7, g8⟩ := h1
  obtain ⟨k1, k2, k3, k4, k5, k6, k7, k8⟩ := h2
  exact ⟨k1.trans g1, k2.trans g2, k3.trans g3, k4.trans g4, k5.trans g5,
    k6.trans g6, k7.trans g7, k8.trans g8⟩

theorem bulkStep_frame {s : EmployeesState} {rec : InputRecord} (ev : Option String)
    (hWF : s.WF) {emp : Employee} (hemp : emp ∈ s.rows) :
    ∃ emp' ∈ (bulkStep ev s rec).rows, sameFrame emp emp' ∧
      (employeeMatches (recFirst rec) (recLast rec) rec.email emp = false → emp' = emp) := by
  rcases hfind : findExisting s.rows rec with _ | e0
  · rw [bulkStep_notfound ev hfind]
    exact ⟨emp, List.mem_append_left _ hemp, sameFrame_refl emp, fun _ => rfl⟩
  · rcases ev with _ | e
    · rw [bulkStep_found_none hfind]
      exact ⟨emp, hemp, sameFrame_refl _, fun _ => rfl⟩
    · by_cases hne : e = ""
      · subst hne
        rw [bulkStep_found_empty hfind]
        exact ⟨emp, hemp, sameFrame_refl _, fun _ => rfl⟩
      · by_cases hmem : e ∈ eventListOf e0.registered_events
        · rw [bulkStep_found_mem hfind hmem]
          exact ⟨emp, hemp, sameFrame_refl _, fun _ => rfl⟩
        · rw [bulkStep_found_app hfind hne hmem]
          refine ⟨if emp.id = e0.id then
              { emp with registered_events := some (appendedEvents e0.registered_events e) }
            else emp, ?_, ?_, ?_⟩
          · exact List.mem_map.mpr ⟨emp, hemp, rfl⟩
          · by_cases hid : emp.id = e0.id <;> simp [hid, sameFrame]
          · intro hnomatch
            by_cases hid : emp.id = e0.id
            · exfalso
              have he0mem : e0 ∈ s.rows := by
                unfold findExisting at hfind
                exact List.mem_of_find?_eq_some hfind
              have heq : emp = e0 := List.inj_on_of_nodup_map hWF.1 hemp he0mem hid
              have hmatch : employeeMatches (recFirst rec) (recLast rec) rec.email e0 = true := by
                unfold findExisting at hfind
                exact List.find?_some hfind
              rw [← heq] at hmatch
              rw [hnomatch] at hmatch
              exact Bool.false_ne_true hmatch
            · rw [if_neg hid]

theorem add_employees_bulk_cons (rec : InputRecord) (rest : List InputRecord)
    (ev : Option String) (s : EmployeesState) :
    add_employees_bulk (rec :: rest) ev s =
      ((add_employees_bulk rest ev (bulkStep ev s rec)).1 + 1,
        (add_employees_bulk rest ev (bulkStep ev s rec)).2) := rfl

theorem bulk_frame_aux : ∀ (employees_data : List InputRecord) (ev : Option String)
    (s : EmployeesState), s.WF → ∀ emp ∈ s.rows,
    ∃ emp' ∈ (add_employees_bulk employees_data ev s).2.rows, sameFrame emp emp' ∧
      ((∀ rec ∈ employees_data,
        employeeMatches (recFirst rec) (recLast rec) rec.email emp = false) → emp' = emp) := by
  intro data
  induction data with
  | nil =>
    intro ev s _ emp hemp
    exact ⟨emp, hemp, sameFrame_refl _, fun _ => rfl⟩
  | cons rec rest ih =>
    intro ev s hWF emp hemp
    obtain ⟨emp1, hemp1, hsf1, hun1⟩ := @bulkStep_frame s rec ev hWF emp hemp
    obtain ⟨emp', hemp', hsf2, hun2⟩ := ih ev (bulkStep ev s rec) (bulkStep_WF ev hWF) emp1 hemp1
    refine ⟨emp', ?_, sameFrame_trans hsf1 hsf2, ?_⟩
    · rw [add_employees_bulk_cons]
      exact hemp'
    · intro hall
      have h1 : emp1 = emp := hun1 (hall rec (List.mem_cons_self ..))
      have h2 : emp' = emp1 := hun2 (by
        intro rec' hrec'
        rw [h1]
        exact hall rec' (List.mem_cons_of_mem _ hrec'))
      rw [h2, h1]

/-! ### Settledness: a record whose merge already happened is a no-op -/

/-- A record is settled in a state when the lookup finds a row and, if the
event label is truthy, that row's event list already contains it. -/
def settled (ev : Option String) (rec : InputRecord) (s : EmployeesState) : Prop :=
  ∃ emp, findExisting s.rows rec = some emp ∧
    ∀ e, ev = some e → e ≠ "" → e ∈ eventListOf emp.registered_events

theorem step_of_settled {ev : Option String} {rec : InputRecord} {s : EmployeesState}
    (h : settled ev rec s) : bulkStep ev s rec = s := by
  obtain ⟨emp, hfind, hmem⟩ := h
  rcases ev with _ | e
  · exact bulkStep_found_none hfind
  · by_cases hne : e = ""
    · subst hne
      exact bulkStep_found_empty hfind
    · exact bulkStep_found_mem hfind (hmem e rfl hne)

theorem settled_of_step_self {ev : Option String} {rec : InputRecord} {s : EmployeesState}
    (hlabel : ∀ e, ev = some e → ',' ∉ e.data ∧ pyStrip e = e) :
    settled ev rec (bulkStep ev s rec) := by
  rcases hfind : findExisting s.rows rec with _ | emp
  · rw [bulkStep_notfound ev hfind]
    refine ⟨_, findExisting_insert_self hfind s.nextId ev, ?_⟩
    intro e he hne
    subst he
    show e ∈ eventListOf (some e)
    rw [eventListOf_truthy hne, parseEvents_single (hlabel e rfl).1, (hlabel e rfl).2]
    exact List.mem_singleton.mpr rfl
  · rcases ev with _ | e
    · rw [bulkStep_found_none hfind]
      exact ⟨emp, hfind, fun e he _ => nomatch he⟩
    · by_cases hne : e = ""
      · subst hne
        rw [bulkStep_found_empty hfind]
        refine ⟨emp, hfind, ?_⟩
        intro e' he' hne'
        cases he'
        exact absurd rfl hne'
      · by_cases hmem : e ∈ eventListOf emp.registered_events
        · rw [bulkStep_found_mem hfind hmem]
          refine ⟨emp, hfind, ?_⟩
          intro e' he' _
          cases he'
          exact hmem
        · rw [bulkStep_found_app hfind hne hmem]
          refine ⟨{ emp with registered_events := some (appendedEvents emp.registered_events e) }, ?_, ?_⟩
          · show findExisting (setEvents s.rows emp.id _) rec = _
            rw [findExisting_setEvents, hfind]
            simp
          · intro e' he' _
            cases he'
            rw [eventListOf_appended hne (hlabel e rfl).1]
            apply List.mem_append_right
            rw [(hlabel e rfl).2]
            exact List.mem_singleton.mpr rfl

theorem settled_mono_step {ev : Option String} {rec rec' : InputRecord} {s : EmployeesState}
    (hWF : s.WF) (hst : settled ev rec s) : settled ev rec (bulkStep ev s rec') := by
  obtain ⟨emp, hfind, hmem⟩ := hst
  rcases hfind' : findExisting s.rows rec' with _ | e0
  · rw [bulkStep_notfound ev hfind']
    exact ⟨emp, findExisting_append_found hfind _, hmem⟩
  · rcases ev with _ | e
    · rw [bulkStep_found_none hfind']
      exact ⟨emp, hfind, hmem⟩
    · by_cases hne : e = ""
      · subst hne
        rw [bulkStep_found_empty hfind']
        exact ⟨emp, hfind, hmem⟩
      · by_cases hm0 : e ∈ eventListOf e0.registered_events
        · rw [bulkStep_found_mem hfind' hm0]
          exact ⟨emp, hfind, hmem⟩
        · rw [bulkStep_found_app hfind' hne hm0]
          have hid : ¬(emp.id = e0.id) := by
            intro hideq
            have hempmem : emp ∈ s.rows := by
              unfold findExisting at hfind
              exact List.mem_of_find?_eq_some hfind
            have he0mem : e0 ∈ s.rows := by
              unfold findExisting at hfind'
              exact List.mem_of_find?_eq_some hfind'
            have heq : emp = e0 := List.inj_on_of_nodup_map hWF.1 hempmem he0mem hideq
            exact hm0 (heq ▸ hmem e rfl hne)
          refine ⟨emp, ?_, hmem⟩
          show findExisting (setEvents s.rows e0.id _) rec = some emp
          rw [findExisting_setEvents, hfind]
          simp [hid]

theorem settled_mono_run {ev : Option String} {rec : InputRecord}
    (data' : List InputRecord) :
    ∀ s : EmployeesState, s.WF → settled ev rec s →
      settled ev rec (add_employees_bulk data' ev s).2 := by
  induction data' with
  | nil =>
    intro s _ h
    exact h
  | cons r' rest ih =>
    intro s hWF h
    rw [add_employees_bulk_cons]
    exact ih (bulkStep ev s r') (bulkStep_WF ev hWF) (settled_mono_step hWF h)

theorem bulk_WF (ev : Option String) :
    ∀ (data : List InputRecord) (s : EmployeesState), s.WF →
      (add_employees_bulk data ev s).2.WF := by
  intro data
  induction data with
  | nil =>
    intro s h
    exact h
  | cons r rest ih =>
    intro s h
    rw [add_employees_bulk_cons]
    exact ih (bulkStep ev s r) (bulkStep_WF ev h)

theorem run_settles {ev : Option String}
    (hlabel : ∀ e, ev = some e → ',' ∉ e.data ∧ pyStrip e = e) :
    ∀ (data : List InputRecord) (s : EmployeesState), s.WF →
      ∀ rec ∈ data, settled ev rec (add_employees_bulk data ev s).2 := by
  intro data
  induction data with
  | nil =>
    intro s _ rec h
    exact absurd h (List.not_mem_nil rec)
  | cons r rest ih =>
    intro s hWF rec hrec
    rw [add_employees_bulk_cons]
    rcases List.mem_cons.mp hrec with rfl | hrec'
    · exact settled_mono_run rest (bulkStep ev s rec) (bulkStep_WF ev hWF)
        (settled_of_step_self hlabel)
    · exact ih (bulkStep ev s r) (bulkStep_WF ev hWF) rec hrec'

theorem run_of_settled (ev : Option String) :
    ∀ (data : List InputRecord) (s : EmployeesState),
      (∀ rec ∈ data, settled ev rec s) → (add_employees_bulk data ev s).2 = s := by
  intro data
  induction data with
  | nil =>
    intro s _
    rfl
  | cons r rest ih =>
    intro s hall
    rw [add_employees_bulk_cons]
    show (add_employees_bulk rest ev (bulkStep ev s r)).2 = s
    rw [step_of_settled (hall r (List.mem_cons_self ..))]
    exact ih s (fun rec h => hall rec (List.mem_cons_of_mem _ h))

/-! ### Claim theorems for the bulk-merge record handling -/

/-- C1: for an input record matched to an existing employee, the event
label is appended (at the end, after the prior entries in their order,
with no reordering and no deduplication, only the label itself being
checked for presence by exact match on trimmed entries) exactly when the
label is non-empty and not already present; the update is persisted on
that employee's row only; otherwise the step mutates nothing. -/
theorem spec_C1 (s : EmployeesState) (rec : InputRecord) (event_name : Option String)
    (emp : Employee) (hfind : findExisting s.rows rec = some emp) :
    (∀ e, event_name = some e → e ≠ "" → e ∉ eventListOf emp.registered_events →
      ((bulkStep event_name s rec).rows =
          setEvents s.rows emp.id (some (appendedEvents emp.registered_events e))
        ∧ (bulkStep event_name s rec).nextId = s.nextId
        ∧ (',' ∉ e.data →
            eventListOf (some (appendedEvents emp.registered_events e)) =
              eventListOf emp.registered_events ++ [pyStrip e])))
    ∧ ((event_name = none ∨ event_name = some "" ∨
          (∃ e, event_name = some e ∧ e ∈ eventListOf emp.registered_events)) →
        bulkStep event_name s rec = s) := by
  constructor
  · intro e he hne hnm
    subst he
    rw [bulkStep_found_app hfind hne hnm]
    refine ⟨rfl, rfl, ?_⟩
    intro hcomma
    by_cases ht : pyTruthy emp.registered_events = true
    · rcases hcur : emp.registered_events with _ | c
      · rw [hcur] at ht
        exact absurd ht (by simp [pyTruthy])
      · have ht' : pyTruthy (some c) = true := by rwa [hcur] at ht
        have hc : c ≠ "" := pyTruthy_some_iff.mp ht'
        have happ : appendedEvents (some c) e = joinCommaSpace (parseEvents c ++ [e]) := by
          simp [appendedEvents, ht']
        rw [happ, eventListOf_truthy hc,
          eventListOf_truthy (joinCommaSpace_append_ne_empty e (parseEvents_ne_nil c)),
          parseEvents_join_append hcomma]
    · have hf : pyTruthy emp.registered_events = false := by
        cases h : pyTruthy emp.registered_events
        · rfl
        · exact absurd h ht
      have happ : appendedEvents emp.registered_events e = e := by
        simp [appendedEvents, hf]
      rw [happ, eventListOf_falsy hf, eventListOf_truthy hne, parseEvents_single hcomma]
      rfl
  · intro h
    rcases h with rfl | rfl | ⟨e, rfl, hmem⟩
    · exact bulkStep_found_none hfind
    · exact bulkStep_found_empty hfind
    · exact bulkStep_found_mem hfind hmem

/-- Witness for C1 at a concrete input: one stored employee with
registered_events "Conf2024", matched by the record, label "Conf2025". -/
theorem spec_C1_witness :
    (∀ e, (some "Conf2025" : Option String) = some e → e ≠ "" →
      e ∉ eventListOf (some "Conf2024") →
      ((bulkStep (some "Conf2025")
          ⟨[⟨1, "Dana", "Levi", none, none, none, none, none, some "Conf2024"⟩], 2⟩
          ⟨some "Dana", some "Levi", none, none, none, none, none⟩).rows =
          setEvents [⟨1, "Dana", "Levi", none, none, none, none, none, some "Conf2024"⟩] 1
            (some (appendedEvents (some "Conf2024") e))
        ∧ (bulkStep (some "Conf2025")
            ⟨[⟨1, "Dana", "Levi", none, none, none, none, none, some "Conf2024"⟩], 2⟩
            ⟨some "Dana", some "Levi", none, none, none, none, none⟩).nextId = 2
        ∧ (',' ∉ e.data →
            eventListOf (some (appendedEvents (some "Conf2024") e)) =
              eventListOf (some "Conf2024") ++ [pyStrip e])))
    ∧ (((some "Conf2025" : Option String) = none ∨ (some "Conf2025" : Option String) = some "" ∨
          (∃ e, (some "Conf2025" : Option String) = some e ∧ e ∈ eventListOf (some "Conf2024"))) →
        bulkStep (some "Conf2025")
          ⟨[⟨1, "Dana", "Levi", none, none, none, none, none, some "Conf2024"⟩], 2⟩
          ⟨some "Dana", some "Levi", none, none, none, none, none⟩ =
          ⟨[⟨1, "Dana", "Levi", none, none, none, none, none, some "Conf2024"⟩], 2⟩) :=
  spec_C1 ⟨[⟨1, "Dana", "Levi", none, none, none, none, none, some "Conf2024"⟩], 2⟩
    ⟨some "Dana", some "Levi", none, none, none, none, none⟩ (some "Conf2025")
    ⟨1, "Dana", "Levi", none, none, none, none, none, some "Conf2024"⟩ (by rfl)

/-- C2: the lookup predicate of add_employees_bulk holds of a stored
employee exactly when first name, last name and email agree by
case-sensitive exact string comparison, a NULL email agreeing with a NULL
email only. -/
theorem spec_C2 (rec : InputRecord) (emp : Employee) (f l : String)
    (hf : rec.first_name = some f) (hl : rec.last_name = some l) :
    employeeMatches (recFirst rec) (recLast rec) rec.email emp = true ↔
      (emp.first_name = f ∧ emp.last_name = l ∧ emp.email = rec.email) := by
  obtain ⟨rfn, rln, rem, rph, rre, rro, rwl⟩ := rec
  obtain ⟨eid, efn, eln, eem, eph, ere, ero, ewl, erv⟩ := emp
  have hf' : rfn = some f := hf
  have hl' : rln = some l := hl
  subst hf' hl'
  simp only [employeeMatches, recFirst, recLast, Option.getD_some]
  rcases eem with _ | x <;> rcases rem with _ | y
  · by_cases h1 : efn = f <;> by_cases h2 : eln = l <;>
      simp [sqlEqStr, sqlAnd, sqlOr, sqlIsNull, sqlIsTrue, h1, h2]
  · by_cases h1 : efn = f <;> by_cases h2 : eln = l <;>
      simp [sqlEqStr, sqlAnd, sqlOr, sqlIsNull, sqlIsTrue, h1, h2]
  · by_cases h1 : efn = f <;> by_cases h2 : eln = l <;>
      simp [sqlEqStr, sqlAnd, sqlOr, sqlIsNull, sqlIsTrue, h1, h2]
  · by_cases h1 : efn = f <;> by_cases h2 : eln = l <;> by_cases h3 : x = y <;>
      simp [sqlEqStr, sqlAnd, sqlOr, sqlIsNull, sqlIsTrue, h1, h2, h3]

/-- Witness for C2 at a concrete input: same names, stored NULL email
against a non-null record email does not match. -/
theorem spec_C2_witness :
    employeeMatches
        (recFirst ⟨some "Dana", some "Levi", some "d@x.il", none, none, none, none⟩)
        (recLast ⟨some "Dana", some "Levi", some "d@x.il", none, none, none, none⟩)
        (⟨some "Dana", some "Levi", some "d@x.il", none, none, none, none⟩ : InputRecord).email
        ⟨1, "Dana", "Levi", none, none, none, none, none, none⟩ = true ↔
      ((⟨1, "Dana", "Levi", none, none, none, none, none, none⟩ : Employee).first_name = "Dana"
        ∧ (⟨1, "Dana", "Levi", none, none, none, none, none, none⟩ : Employee).last_name = "Levi"
        ∧ (⟨1, "Dana", "Levi", none, none, none, none, none, none⟩ : Employee).email =
            (⟨some "Dana", some "Levi", some "d@x.il", none, none, none, none⟩ : InputRecord).email) :=
  spec_C2 ⟨some "Dana", some "Levi", some "d@x.il", none, none, none, none⟩
    ⟨1, "Dana", "Levi", none, none, none, none, none, none⟩ "Dana" "Levi" rfl rfl

/-- C3: for an input record matching no stored employee,
add_employees_bulk inserts a new row under the fresh sequence id carrying
the record's fields, with the event label as the registered_events cell:
its sole entry when the label is non-empty, no entry at all when the
label is empty or absent. -/
theorem spec_C3 (s : EmployeesState) (rec : InputRecord) (event_name : Option String)
    (hfind : findExisting s.rows rec = none) :
    (bulkStep event_name s rec).rows = s.rows ++
      [⟨s.nextId, recFirst rec, recLast rec, rec.email, rec.phone, rec.residence, rec.role,
        rec.work_location, event_name⟩]
    ∧ (bulkStep event_name s rec).nextId = s.nextId + 1
    ∧ (∀ e, event_name = some e → e ≠ "" → ',' ∉ e.data →
        eventListOf event_name = [pyStrip e])
    ∧ (pyTruthy event_name = false → eventListOf event_name = []) := by
  rw [bulkStep_notfound event_name hfind]
  refine ⟨rfl, rfl, ?_, ?_⟩
  · intro e he hne hcomma
    subst he
    rw [eventListOf_truthy hne, parseEvents_single hcomma]
  · exact eventListOf_falsy

/-- Witness for C3 at a concrete input: inserting into the empty table. -/
theorem spec_C3_witness :
    (bulkStep (some "Conf2024") ⟨[], 1⟩
        ⟨some "Dana", some "Levi", some "d@x.il", some "050", none, none, none⟩).rows =
      [] ++ [⟨1, recFirst ⟨some "Dana", some "Levi", some "d@x.il", some "050", none, none, none⟩,
        recLast ⟨some "Dana", some "Levi", some "d@x.il", some "050", none, none, none⟩,
        some "d@x.il", some "050", none, none, none, some "Conf2024"⟩]
    ∧ (bulkStep (some "Conf2024") ⟨[], 1⟩
        ⟨some "Dana", some "Levi", some "d@x.il", some "050", none, none, none⟩).nextId = 2
    ∧ (∀ e, (some "Conf2024" : Option String) = some e → e ≠ "" → ',' ∉ e.data →
        eventListOf (some "Conf2024") = [pyStrip e])
    ∧ (pyTruthy (some "Conf2024") = false → eventListOf (some "Conf2024") = []) :=
  spec_C3 ⟨[], 1⟩ ⟨some "Dana", some "Levi", some "d@x.il", some "050", none, none, none⟩
    (some "Conf2024") (by rfl)

/-! ### Claim theorems for the services table -/

/-- C4: add_service(name, domain) returns a boolean failure (not an
exception) if and only if a service with that name already exists; in the
failure case the services table is left unchanged, otherwise the row is
inserted and success is returned. -/
theorem spec_C4 (name domain : String) (s : ServicesState) :
    ((add_service name domain s).1 = false ↔ ∃ r ∈ s.rows, r.name = name)
    ∧ ((add_service name domain s).1 = false → (add_service name domain s).2 = s)
    ∧ ((add_service name domain s).1 = true →
        (add_service name domain s).2.rows = s.rows ++ [⟨s.nextId, name, domain⟩]) := by
  unfold add_service
  by_cases h : s.rows.any (fun r => r.name = name) = true
  · rw [if_pos h]
    refine ⟨⟨fun _ => ?_, fun _ => rfl⟩, fun _ => rfl, fun hc => by simp at hc⟩
    obtain ⟨r, hr, he⟩ := List.any_eq_true.mp h
    exact ⟨r, hr, by simpa using he⟩
  · rw [if_neg h]
    refine ⟨⟨fun hc => by simp at hc, fun hex => ?_⟩, fun hc => by simp at hc, fun _ => rfl⟩
    obtain ⟨r, hr, he⟩ := hex
    exact absurd (List.any_eq_true.mpr ⟨r, hr, by simpa using he⟩) h

/-- Witness for C4 at a concrete input: adding "B" next to an existing
service "A". -/
theorem spec_C4_witness :
    ((add_service "B" "Y" ⟨[⟨1, "A", "X"⟩], 2⟩).1 = false ↔
      ∃ r ∈ (⟨[⟨1, "A", "X"⟩], 2⟩ : ServicesState).rows, r.name = "B")
    ∧ ((add_service "B" "Y" ⟨[⟨1, "A", "X"⟩], 2⟩).1 = false →
        (add_service "B" "Y" ⟨[⟨1, "A", "X"⟩], 2⟩).2 = ⟨[⟨1, "A", "X"⟩], 2⟩)
    ∧ ((add_service "B" "Y" ⟨[⟨1, "A", "X"⟩], 2⟩).1 = true →
        (add_service "B" "Y" ⟨[⟨1, "A", "X"⟩], 2⟩).2.rows =
          (⟨[⟨1, "A", "X"⟩], 2⟩ : ServicesState).rows ++ [⟨2, "B", "Y"⟩]) :=
  spec_C4 "B" "Y" ⟨[⟨1, "A", "X"⟩], 2⟩

/-- C6: adding a service with a fresh name succeeds, get_all_services then
contains the row with those fields under the freshly assigned id, that id
differs from every pre-existing id, and the returned list is sorted by
(domain, name). -/
theorem spec_C6 (name domain : String) (s : ServicesState)
    (hname : ∀ r ∈ s.rows, r.name ≠ name) (hfresh : ∀ r ∈ s.rows, r.id < s.nextId) :
    (add_service name domain s).1 = true
    ∧ (⟨s.nextId, name, domain⟩ : Service) ∈ get_all_services (add_service name domain s).2
    ∧ (∀ r ∈ s.rows, r.id ≠ s.nextId)
    ∧ List.Sorted serviceLE (get_all_services (add_service name domain s).2) := by
  have hany : ¬(s.rows.any (fun r => r.name = name) = true) := by
    intro h
    obtain ⟨r, hr, he⟩ := List.any_eq_true.mp h
    exact hname r hr (by simpa using he)
  refine ⟨?_, ?_, ?_, ?_⟩
  · unfold add_service
    rw [if_neg hany]
  · unfold get_all_services add_service
    rw [if_neg hany]
    exact (List.perm_insertionSort serviceLE _).mem_iff.mpr
      (List.mem_append_right _ (List.mem_singleton_self _))
  · exact fun r hr => Nat.ne_of_lt (hfresh r hr)
  · exact List.sorted_insertionSort _ _

/-- Witness for C6 at a concrete input. -/
theorem spec_C6_witness :
    ((∀ r ∈ (⟨[⟨1, "A", "X"⟩], 2⟩ : ServicesState).rows, r.name ≠ "B") ∧
      (∀ r ∈ (⟨[⟨1, "A", "X"⟩], 2⟩ : ServicesState).rows, r.id < 2))
    ∧ ((add_service "B" "Y" ⟨[⟨1, "A", "X"⟩], 2⟩).1 = true
        ∧ (⟨2, "B", "Y"⟩ : Service) ∈ get_all_services (add_service "B" "Y" ⟨[⟨1, "A", "X"⟩], 2⟩).2
        ∧ (∀ r ∈ (⟨[⟨1, "A", "X"⟩], 2⟩ : ServicesState).rows, r.id ≠ 2)
        ∧ List.Sorted serviceLE (get_all_services (add_service "B" "Y" ⟨[⟨1, "A", "X"⟩], 2⟩).2)) :=
  ⟨⟨by decide, by decide⟩, spec_C6 "B" "Y" ⟨[⟨1, "A", "X"⟩], 2⟩ (by decide) (by decide)⟩

/-! ### Claim theorems for the ordered reads and the bulk count -/

/-- C7: get_all_employees returns exactly the employee rows, sorted by
last name then first name; get_all_events returns exactly the event rows,
sorted by date descending (NULL dates last) then name. -/
theorem spec_C7 (es : EmployeesState) (vs : EventsState) :
    ((get_all_employees es).Perm es.rows ∧ List.Sorted employeeLE (get_all_employees es))
    ∧ ((get_all_events vs).Perm vs.rows ∧ List.Sorted eventLE (get_all_events vs)) :=
  ⟨⟨List.perm_insertionSort _ _, List.sorted_insertionSort _ _⟩,
   ⟨List.perm_insertionSort _ _, List.sorted_insertionSort _ _⟩⟩

/-- C8: add_employees_bulk returns the number of input records, whatever
the records do to the table. -/
theorem spec_C8 (employees_data : List InputRecord) (event_name : Option String)
    (s : EmployeesState) :
    (add_employees_bulk employees_data event_name s).1 = employees_data.length := by
  induction employees_data generalizing s with
  | nil => rfl
  | cons rec rest ih => simp [add_employees_bulk, ih]

/-! ### Claim theorems for the frame and idempotence of the bulk merge -/

/-- C9: the bulk merge never rewrites any stored field other than
registered_events: every pre-existing row survives under its id with all
its other fields intact, and a row matched by no input record survives
entirely unchanged. -/
theorem spec_C9 (employees_data : List InputRecord) (event_name : Option String)
    (s : EmployeesState) (hWF : s.WF) :
    ∀ emp ∈ s.rows,
      ∃ emp' ∈ (add_employees_bulk employees_data event_name s).2.rows,
        sameFrame emp emp' ∧
        ((∀ rec ∈ employees_data,
            employeeMatches (recFirst rec) (recLast rec) rec.email emp = false) → emp' = emp) :=
  bulk_frame_aux employees_data event_name s hWF

/-- Witness for C9 at a concrete input: one stored employee, one
non-matching record, one matching record. -/
theorem spec_C9_witness :
    (⟨[⟨1, "Aya", "Bar", none, none, none, none, none, none⟩], 2⟩ : EmployeesState).WF
    ∧ (∀ emp ∈ (⟨[⟨1, "Aya", "Bar", none, none, none, none, none, none⟩], 2⟩ :
          EmployeesState).rows,
        ∃ emp' ∈ (add_employees_bulk
            [⟨some "Dana", some "Levi", none, none, none, none, none⟩] (some "Conf2024")
            ⟨[⟨1, "Aya", "Bar", none, none, none, none, none, none⟩], 2⟩).2.rows,
          sameFrame emp emp' ∧
          ((∀ rec ∈ [(⟨some "Dana", some "Levi", none, none, none, none, none⟩ : InputRecord)],
              employeeMatches (recFirst rec) (recLast rec) rec.email emp = false) →
            emp' = emp)) :=
  ⟨⟨by decide, by decide⟩,
    spec_C9 [⟨some "Dana", some "Levi", none, none, none, none, none⟩] (some "Conf2024")
      ⟨[⟨1, "Aya", "Bar", none, none, none, none, none, none⟩], 2⟩ ⟨by decide, by decide⟩⟩

/-- C10: the bulk merge is idempotent for labels with no comma and no
leading or trailing whitespace: re-running the same import with the same
label leaves the employees table exactly as the first run left it. -/
theorem spec_C10 (employees_data : List InputRecord) (event_name : Option String)
    (s : EmployeesState) (hWF : s.WF)
    (hlabel : ∀ e, event_name = some e → ',' ∉ e.data ∧ pyStrip e = e) :
    (add_employees_bulk employees_data event_name
        (add_employees_bulk employees_data event_name s).2).2 =
      (add_employees_bulk employees_data event_name s).2 :=
  run_of_settled event_name employees_data _
    (run_settles hlabel employees_data s hWF)

/-- Witness for C10 at a concrete input: importing the same two records
(one duplicated pair) twice with label "Conf2024" starting from the empty
table. -/
theorem spec_C10_witness :
    ((⟨[], 1⟩ : EmployeesState).WF
      ∧ (∀ e, (some "Conf2024" : Option String) = some e → ',' ∉ e.data ∧ pyStrip e = e))
    ∧ (add_employees_bulk
        [⟨some "Dana", some "Levi", some "d@x.il", none, none, none, none⟩,
         ⟨some "Dana", some "Levi", some "d@x.il", none, none, none, none⟩] (some "Conf2024")
        (add_employees_bulk
          [⟨some "Dana", some "Levi", some "d@x.il", none, none, none, none⟩,
           ⟨some "Dana", some "Levi", some "d@x.il", none, none, none, none⟩] (some "Conf2024")
          ⟨[], 1⟩).2).2 =
      (add_employees_bulk
        [⟨some "Dana", some "Levi", some "d@x.il", none, none, none, none⟩,
         ⟨some "Dana", some "Levi", some "d@x.il", none, none, none, none⟩] (some "Conf2024")
        ⟨[], 1⟩).2 :=
  ⟨⟨⟨by decide, by decide⟩, fun e he => by
      cases he
      exact ⟨by decide, by decide⟩⟩,
    spec_C10
      [⟨some "Dana", some "Levi", some "d@x.il", none, none, none, none⟩,
       ⟨some "Dana", some "Levi", some "d@x.il", none, none, none, none⟩] (some "Conf2024")
      ⟨[], 1⟩ ⟨by decide, by decide⟩ (fun e he => by
        cases he
        exact ⟨by decide, by decide⟩)⟩

end Maavarim

